import Mathlib

/-!
Shallow embedding of the 2048 advisor core in `src/app.py` and proofs of the
specification claims about it.  Boards are total functions `Fin 4 → Fin 4 → ℕ`
(the 4×4 numpy array), heuristic scores are exact rationals.
-/

namespace App2048

attribute [local semireducible] Rat.add Rat.mul Rat.sub Rat.inv Rat.ofScientific

/-- A 4×4 board: the numpy array `board`, row-major. -/
abbrev Board := Fin 4 → Fin 4 → ℕ

/-- Build a board from a row-major list of rows (helper for concrete boards;
out-of-range entries read 0, which never happens on 4×4 inputs). -/
def mkBoard (rows : List (List ℕ)) : Board :=
  fun i j => ((rows.getD i.val []).getD j.val 0)

/-- Row `i` of a board as a list: `board[i]`. -/
def rowList (b : Board) (i : Fin 4) : List ℕ :=
  [b i 0, b i 1, b i 2, b i 3]

/-- The merge loop of `move_left` (lines 20–27 of app.py): scan the
zero-free row left to right; equal neighbours combine into their double and
the scan advances two places, otherwise the element is kept and the scan
advances one place. -/
def mergeRow : List ℕ → List ℕ
  | [] => []
  | [x] => [x]
  | x :: y :: rest =>
    if x = y then x * 2 :: mergeRow rest
    else x :: mergeRow (y :: rest)

/-- One row of `move_left`: drop zeros (`row = [x for x in board[i] if x != 0]`),
run the merge loop, pad with zeros on the right to length 4. -/
def slideRow (r : List ℕ) : List ℕ :=
  let m := mergeRow (r.filter (fun x => x ≠ 0))
  m ++ List.replicate (4 - m.length) 0

/-- `move_left(board)`: each row slides independently; the result is a fresh
board whose row `i` is `slideRow` of row `i`. -/
def move_left (b : Board) : Board :=
  fun i j => (slideRow (rowList b i)).getD j.val 0

/-- `np.rot90(b, 1)` (counterclockwise): entry `(i, j)` of the result is
`b[j, 3-i]`. -/
def rot90 (b : Board) : Board :=
  fun i j => b j i.rev

/-- `np.rot90(b, -1)` (clockwise): entry `(i, j)` of the result is
`b[3-j, i]`. -/
def rot270 (b : Board) : Board :=
  fun i j => b j.rev i

/-- `np.fliplr(b)`: reverse every row. -/
def fliplr (b : Board) : Board :=
  fun i j => b i j.rev

/-- `move_board(b, direction)` (app.py lines 36–51).  The final `else`
branch of the source returns `b.copy()`: an unknown direction token yields
the board unchanged, no error is raised. -/
def move_board (b : Board) (direction : String) : Board :=
  if direction = "up" then rot270 (move_left (rot90 b))
  else if direction = "down" then rot90 (move_left (rot270 b))
  else if direction = "left" then move_left b
  else if direction = "right" then fliplr (move_left (fliplr b))
  else b

/-- `simulate_after_move(b, direction)` (app.py lines 53–61): `None` when the
move changes nothing (`moved` is board inequality, `merged` is
`np.any(after > before)`), otherwise the moved board.  The `b.copy()` calls of
the source only shield the caller's array from aliasing; values are immutable
here, so they are the identity. -/
def simulate_after_move (b : Board) (direction : String) : Option Board :=
  let before := b
  let after := move_board b direction
  if (before = after) ∧ ¬ (∃ i j, after i j > before i j) then none
  else some after

/-- All 16 cells of the board, row-major. -/
def cells (b : Board) : List ℕ :=
  ((List.finRange 4).map (fun i => rowList b i)).flatten

/-- `count_empty(b)`: `np.sum(b == 0)`. -/
def count_empty (b : Board) : ℕ :=
  (cells b).countP (fun x => x == 0)

/-- `max_tile(b)`: `np.max(b)` when some cell is nonzero, else 0 (a fold with
maximum and base 0 computes both branches at once). -/
def max_tile (b : Board) : ℕ :=
  (cells b).foldl max 0

/-- Adjacent pairs of a list, in order. -/
def adjPairs : List ℕ → List (ℕ × ℕ)
  | x :: y :: rest => (x, y) :: adjPairs (y :: rest)
  | _ => []

/-- The four rows of the board, as lists. -/
def rowLists (b : Board) : List (List ℕ) :=
  (List.finRange 4).map (fun i => rowList b i)

/-- The four columns of the board (`b.T`), as lists. -/
def colLists (b : Board) : List (List ℕ) :=
  (List.finRange 4).map (fun j => (List.finRange 4).map (fun i => b i j))

/-- `smoothness(b)` (app.py lines 73–81): minus the sum of absolute
differences of horizontally and vertically adjacent cells. -/
def smoothness (b : Board) : ℤ :=
  (rowLists b ++ colLists b).foldl
    (fun s r => (adjPairs r).foldl
      (fun t p => t - (((p.1 : ℤ) - (p.2 : ℤ)).natAbs : ℤ)) s) 0

/-- `monotonicity(b)` (app.py lines 83–89): over every row and every column,
the number of adjacent pairs with `left ≥ right` (resp. `top ≥ bottom`). -/
def monotonicity (b : Board) : ℕ :=
  (rowLists b ++ colLists b).foldl
    (fun s r => s + (adjPairs r).countP (fun p => decide (p.2 ≤ p.1))) 0

/-- Structural base-2 integer logarithm (fuel-driven so that it evaluates in
the kernel). -/
def ilog2 : ℕ → ℕ → ℕ
  | 0, _ => 0
  | fuel + 1, n => if 2 ≤ n then ilog2 fuel (n / 2) + 1 else 0

/-- Models `math.log2` of the source at the values it is applied to: on a
power of two the float logarithm is exact and equals this integer logarithm
(cast to ℚ). -/
def log2q (n : ℕ) : ℚ :=
  (ilog2 n n : ℚ)

/-- `evaluate_board(b)` (app.py lines 91–103) with the fixed weights
2.7, 1.5, 0.08, 0.9; scores are exact rationals. -/
def evaluate_board (b : Board) : ℚ :=
  (2.7 : ℚ) * (count_empty b : ℚ)
    + (1.5 : ℚ) * log2q (if max_tile b > 0 then max_tile b else 1)
    + (0.08 : ℚ) * (smoothness b : ℚ)
    + (0.9 : ℚ) * (monotonicity b : ℚ)

/-- The empty cells in row-major order:
`list(zip(*np.where(board == 0)))`. -/
def empties (b : Board) : List (Fin 4 × Fin 4) :=
  (List.finRange 4).flatMap
    (fun i => ((List.finRange 4).filter (fun j => b i j == 0)).map (fun j => (i, j)))

/-- `nb = board.copy(); nb[r, c] = val` as a value: the board with one cell
overwritten. -/
def setCell (b : Board) (r c : Fin 4) (v : ℕ) : Board :=
  fun i j => if i = r ∧ j = c then v else b i j

/-- The fixed direction enumeration `["up", "down", "left", "right"]`. -/
def moveOrder : List String := ["up", "down", "left", "right"]

/-- `expectimax(board, depth, is_player)` (app.py lines 109–133) for the
non-negative depths the advisor uses.  The source's single guard
`depth == 0 or not np.any(board == 0)` is split over the outer match and the
first `if`; the running `best = -inf` of the player loop is an `Option ℚ`
(`none` = still `-inf`), and `return best if best != -inf else evaluate_board(board)`
is the final `getD`. -/
def expectimax (b : Board) (depth : ℕ) (is_player : Bool) : ℚ :=
  match depth with
  | 0 => evaluate_board b
  | d + 1 =>
    if empties b = [] then evaluate_board b
    else if is_player then
      (moveOrder.foldl
        (fun best mv =>
          match simulate_after_move b mv with
          | none => best
          | some nb =>
            let val := expectimax nb d false
            match best with
            | none => some val
            | some bv => if val > bv then some val else some bv)
        none).getD (evaluate_board b)
    else
      let es := empties b
      (es.foldl
        (fun total rc =>
          [((2 : ℕ), (0.9 : ℚ)), ((4 : ℕ), (0.1 : ℚ))].foldl
            (fun t vp => t + vp.2 * expectimax (setCell b rc.1 rc.2 vp.1) d true)
            total)
        0) / (es.length : ℚ)

/-- The `move_scores` dict of `get_move_with_explanation` (app.py lines
136–144) as an association list in insertion order: for each direction in the
fixed enumeration order, the valid ones paired with
`expectimax(nb, depth - 1, False)`. -/
def move_scores (b : Board) (depth : ℕ) : List (String × ℚ) :=
  moveOrder.filterMap
    (fun mv => (simulate_after_move b mv).map
      (fun nb => (mv, expectimax nb (depth - 1) false)))

/-- One comparison step of Python's `max`: the new candidate replaces the
accumulator only when its score is strictly greater, so the first maximal
element survives. -/
def pick (acc q : String × ℚ) : String × ℚ :=
  if q.2 > acc.2 then q else acc

/-- `max(move_scores, key=lambda m: move_scores[m])` over the insertion-ordered
dict: Python's `max` keeps the first maximal element. -/
def bestOf : List (String × ℚ) → Option (String × ℚ)
  | [] => none
  | p :: rest => some (rest.foldl pick p)

/-- Python `round(x, 2)` on the exact rational score (the source rounds a
float; the model rounds the exact value to hundredths). -/
def round2 (q : ℚ) : ℚ :=
  ((round (q * 100) : ℤ) : ℚ) / 100

/-- `get_move_with_explanation(board, depth)` (app.py lines 135–167) for the
positive depths the routes use.  The `details` dict of the source stores, per
valid move, values recomputed here from the moved board of the selected entry
(the functions are pure, so the values agree); numeric formatting inside the
explanation string uses the exact rationals. -/
def get_move_with_explanation (b : Board) (depth : ℕ) :
    Option String × List (String × ℚ) × String :=
  let scores := move_scores b depth
  match bestOf scores with
  | none => (none, [], "No valid moves available.")
  | some bp =>
    let nb := (simulate_after_move b bp.1).getD b
    let explanation :=
      "Expected utility: " ++ toString (round2 bp.2)
        ++ " | Empty tiles after move: " ++ toString (count_empty nb)
        ++ " | Max tile after move: " ++ toString (max_tile nb)
        ++ " | Monotonicity: " ++ toString (monotonicity nb)
        ++ " | Reason: Chose the move with the highest expected heuristic score."
    (some bp.1, scores, explanation)

/-- The coach block of `ai_suggest` (app.py lines 224–230).  `player_move` is
the decoded `playerMove` field (`none` or the empty string are falsy in the
source's `if player_move:`).  When the player's move differs from the
recommendation the source evaluates `best_move.upper()`; with `best_move =
None` (terminal board) that raises `AttributeError`, modelled as `none`. -/
def coach_msg (best_move : Option String) (player_move : Option String) :
    Option String :=
  match player_move with
  | none => some ""
  | some pm =>
    if pm = "" then some ""
    else if best_move = some pm then
      some ("Good move! " ++ pm.toUpper ++ " was the optimal choice.")
    else
      match best_move with
      | some bm => some ("A better alternative could have been " ++ bm.toUpper ++ ".")
      | none => none

/-- The `ai_suggest` route body after JSON decoding (app.py lines 213–237):
the advisor result plus the coach message; `none` models the uncaught
`AttributeError` of the coach block. -/
def ai_suggest (b : Board) (depth : ℕ) (player_move : Option String) :
    Option (Option String × List (String × ℚ) × String × String) :=
  let res := get_move_with_explanation b depth
  (coach_msg res.1 player_move).map (fun c => (res.1, res.2.1, res.2.2, c))

/-- The player loop of `expectimax` for the fuel-instrumented variant below:
`none` when some recursive call ran out of fuel, otherwise the running
`best` (`none` = still `-inf`). -/
def playerLoopF (f : Board → Option ℚ) (b : Board) :
    List String → Option ℚ → Option (Option ℚ)
  | [], best => some best
  | mv :: rest, best =>
    match simulate_after_move b mv with
    | none => playerLoopF f b rest best
    | some nb =>
      match f nb with
      | none => none
      | some val =>
        playerLoopF f b rest
          (match best with
           | none => some val
           | some bv => if val > bv then some val else some bv)

/-- The chance loop of the fuel-instrumented `expectimax`: the running
`total`, `none` when some recursive call ran out of fuel. -/
def chanceLoopF (f : Board → Option ℚ) (b : Board) :
    List (Fin 4 × Fin 4) → ℚ → Option ℚ
  | [], total => some total
  | rc :: rest, total =>
    match f (setCell b rc.1 rc.2 2) with
    | none => none
    | some v2 =>
      match f (setCell b rc.1 rc.2 4) with
      | none => none
      | some v4 =>
        chanceLoopF f b rest (total + (0.9 : ℚ) * v2 + (0.1 : ℚ) * v4)

/-- `expectimax(board, depth, is_player)` exactly as in the source, with the
Python `int` depth kept as `ℤ` (the guard is the equality `depth == 0`, so a
negative depth is *not* terminal) and the finite call stack made explicit as
fuel: `none` means the computation has not finished within `fuel` nested
calls.  Fuel 1 suffices for any call that takes the terminal branch, so a
`none` at fuel 1 certifies that a recursive call was made. -/
def expectimaxF : ℕ → Board → ℤ → Bool → Option ℚ
  | 0, _, _, _ => none
  | fuel + 1, b, depth, is_player =>
    if depth = 0 ∨ empties b = [] then some (evaluate_board b)
    else if is_player then
      (playerLoopF (fun nb => expectimaxF fuel nb (depth - 1) false) b
        moveOrder none).map (fun best => best.getD (evaluate_board b))
    else
      let es := empties b
      (chanceLoopF (fun nb => expectimaxF fuel nb (depth - 1) true) b es 0).map
        (fun total => total / (es.length : ℚ))

/-- Modelled from the spec: the gained-score and merge-target outputs of the
MoveSimulator contract (§4.1), which `move_left` in src/app.py does not
compute (it returns only the board).  On the zero-compressed row, scan left
to right; an equal pair becomes its double, the new value is added to the
score, and the merge target is recorded at the current index of the
post-merge (output) row; otherwise the element is kept. -/
def mergeScored : ℕ → List ℕ → List ℕ × ℕ × List ℕ
  | _, [] => ([], 0, [])
  | _, [x] => ([x], 0, [])
  | idx, x :: y :: rest =>
    if x = y then
      let r := mergeScored (idx + 1) rest
      (x * 2 :: r.1, x * 2 + r.2.1, idx :: r.2.2)
    else
      let r := mergeScored (idx + 1) (y :: rest)
      (x :: r.1, r.2.1, r.2.2)

/-- Modelled from the spec: the slide-left primitive of §4.1 with its gained
score and merge-target columns (outputs absent from src/app.py): compress,
merge with score and targets, pad with zeros to length 4. -/
def slideRowScored (r : List ℕ) : List ℕ × ℕ × List ℕ :=
  let m := mergeScored 0 (r.filter (fun x => x ≠ 0))
  (m.1 ++ List.replicate (4 - m.1.length) 0, m.2.1, m.2.2)

/-- No two adjacent cells of the row are equal and nonzero (such a pair is
exactly what a further slide would merge). -/
def AdjOK (r : List ℕ) : Prop :=
  ∀ p ∈ adjPairs r, p.1 ≠ 0 → p.2 ≠ 0 → p.1 ≠ p.2

instance (r : List ℕ) : Decidable (AdjOK r) := by
  unfold AdjOK; infer_instance

/-- A legal cell value: 0 or a power of two that is at least 2. -/
def CellOK (n : ℕ) : Prop :=
  n = 0 ∨ ∃ k, n = 2 ^ (k + 1)

instance : DecidablePred CellOK := fun n =>
  decidable_of_iff (n = 0 ∨ ∃ k, k < n ∧ n = 2 ^ (k + 1)) (by
    constructor
    · rintro (h | ⟨k, -, hk⟩)
      · exact Or.inl h
      · exact Or.inr ⟨k, hk⟩
    · rintro (h | ⟨k, hk⟩)
      · exact Or.inl h
      · refine Or.inr ⟨k, ?_, hk⟩
        calc k < 2 ^ k := Nat.lt_two_pow k
          _ ≤ 2 ^ (k + 1) := Nat.pow_le_pow_right (by norm_num) (Nat.le_succ k)
          _ = n := hk.symm)

/-- A well-formed board: every cell is 0 or a power of two ≥ 2 (the 4×4
dimensions are carried by the type itself). -/
def WF (b : Board) : Prop :=
  ∀ i j, CellOK (b i j)

instance (b : Board) : Decidable (WF b) := by
  unfold WF; infer_instance

/-- The all-zero board. -/
def zeroBoard : Board := fun _ _ => 0

/-- A board with a single 2 in the top-left corner. -/
def cornerBoard : Board :=
  mkBoard [[2, 0, 0, 0], [0, 0, 0, 0], [0, 0, 0, 0], [0, 0, 0, 0]]

/-- A full board with no two equal adjacent cells: no direction is valid. -/
def terminalBoard : Board :=
  mkBoard [[2, 4, 2, 4], [4, 2, 4, 2], [2, 4, 2, 4], [4, 2, 4, 2]]

/-- A board whose top row is `[2, 2, 2, 2]`: sliding left merges twice. -/
def quadBoard : Board :=
  mkBoard [[2, 2, 2, 2], [0, 0, 0, 0], [0, 0, 0, 0], [0, 0, 0, 0]]

/-- A malformed board: 3 is not a power of two. -/
def badBoard : Board :=
  mkBoard [[3, 3, 0, 0], [0, 0, 0, 0], [0, 0, 0, 0], [0, 0, 0, 0]]

/-! ### Heap model of the numpy arrays

`simulate_after_move`, `expectimax` and `get_move_with_explanation` receive a
reference to a caller-owned numpy array.  To state that they never mutate it,
the arrays live in an explicit heap (a list of boards indexed by allocation
order); `.copy()`/`np.zeros_like` allocate at the end, `nb[r, c] = val` is an
in-place write through a reference. -/

/-- The heap of allocated numpy arrays; a reference is an index into it. -/
abbrev Heap := List Board

/-- Dereference (reads of an unallocated reference never occur and default to
the zero board). -/
def getRef (h : Heap) (r : ℕ) : Board :=
  h.getD r zeroBoard

/-- Allocate a fresh array holding `b`: `b.copy()`, `np.zeros_like` + fill. -/
def alloc (h : Heap) (b : Board) : Heap × ℕ :=
  (h ++ [b], h.length)

/-- `h[r][i, j] = v`: in-place write through reference `r`. -/
def writeCell (h : Heap) (r : ℕ) (i j : Fin 4) (v : ℕ) : Heap :=
  h.set r (setCell (getRef h r) i j v)

/-- `simulate_after_move` with its allocations explicit: `before = b.copy()`,
the `b.copy()` argument, and the fresh result array built inside
`move_board`/`move_left`; the board behind `r` is only read. -/
def simulate_after_moveH (h : Heap) (r : ℕ) (direction : String) :
    Heap × Option ℕ :=
  let a1 := alloc h (getRef h r)
  let a2 := alloc a1.1 (getRef a1.1 r)
  let a3 := alloc a2.1 (move_board (getRef a2.1 a2.2) direction)
  let before := getRef a1.1 a1.2
  let after := getRef a3.1 a3.2
  if (before = after) ∧ ¬ (∃ i j, after i j > before i j) then (a3.1, none)
  else (a3.1, some a3.2)

/-- `expectimax` with the heap explicit.  The chance node is the only place
in the source that writes into an array: `nb = board.copy(); nb[r, c] = val`
allocates a copy and writes through the fresh reference, once for 2 and once
for 4 per empty cell. -/
def expectimaxH (h : Heap) (r : ℕ) (depth : ℕ) (is_player : Bool) :
    Heap × ℚ :=
  match depth with
  | 0 => (h, evaluate_board (getRef h r))
  | d + 1 =>
    if empties (getRef h r) = [] then (h, evaluate_board (getRef h r))
    else if is_player then
      let st := moveOrder.foldl
        (fun (st : Heap × Option ℚ) mv =>
          let sm := simulate_after_moveH st.1 r mv
          match sm.2 with
          | none => (sm.1, st.2)
          | some ra =>
            let ev := expectimaxH sm.1 ra d false
            (ev.1,
             match st.2 with
             | none => some ev.2
             | some bv => if ev.2 > bv then some ev.2 else some bv))
        (h, none)
      (st.1, st.2.getD (evaluate_board (getRef h r)))
    else
      let es := empties (getRef h r)
      let st := es.foldl
        (fun (st : Heap × ℚ) rc =>
          let a2 := alloc st.1 (getRef st.1 r)
          let h2 := writeCell a2.1 a2.2 rc.1 rc.2 2
          let e2 := expectimaxH h2 a2.2 d true
          let a4 := alloc e2.1 (getRef e2.1 r)
          let h4 := writeCell a4.1 a4.2 rc.1 rc.2 4
          let e4 := expectimaxH h4 a4.2 d true
          (e4.1, st.2 + (0.9 : ℚ) * e2.2 + (0.1 : ℚ) * e4.2))
        (h, 0)
      (st.1, st.2 / (es.length : ℚ))

/-- The advisor loop of `get_move_with_explanation` with the heap explicit
(the explanation string is a pure function of values already read, so it is
omitted here; the board behind `r` is only read). -/
def get_move_with_explanationH (h : Heap) (r : ℕ) (depth : ℕ) :
    Heap × (Option String × List (String × ℚ)) :=
  let st := moveOrder.foldl
    (fun (st : Heap × List (String × ℚ)) mv =>
      let sm := simulate_after_moveH st.1 r mv
      match sm.2 with
      | none => (sm.1, st.2)
      | some ra =>
        let ev := expectimaxH sm.1 ra (depth - 1) false
        (ev.1, st.2 ++ [(mv, ev.2)]))
    (h, [])
  ((bestOf st.2).elim (st.1, (none, [])) (fun bp => (st.1, (some bp.1, st.2))))

/-! ## Theorems -/

/-! ### Row lemmas for the slide-left primitive -/

theorem mergeRow_mem : ∀ (l : List ℕ), ∀ z ∈ mergeRow l, z ∈ l ∨ ∃ x ∈ l, z = x * 2 := by
  intro l
  induction l using mergeRow.induct with
  | case1 => simp [mergeRow]
  | case2 x => simp [mergeRow]
  | case3 y rest ih =>
    intro z hz
    simp only [mergeRow, if_pos rfl] at hz
    rcases List.mem_cons.mp hz with rfl | hz'
    · exact Or.inr ⟨y, by simp, rfl⟩
    · rcases ih z hz' with h1 | ⟨w, hw, rfl⟩
      · exact Or.inl (by simp [h1])
      · exact Or.inr ⟨w, by simp [hw], rfl⟩
  | case4 x y rest h ih =>
    intro z hz
    simp only [mergeRow, if_neg h] at hz
    rcases List.mem_cons.mp hz with rfl | hz'
    · exact Or.inl (by simp)
    · rcases ih z hz' with h1 | ⟨w, hw, rfl⟩
      · exact Or.inl (by simp [List.mem_cons.mp h1])
      · exact Or.inr ⟨w, by simp [List.mem_cons.mp hw], rfl⟩

theorem mergeRow_length_le : ∀ (l : List ℕ), (mergeRow l).length ≤ l.length := by
  intro l
  induction l using mergeRow.induct with
  | case1 => simp [mergeRow]
  | case2 x => simp [mergeRow]
  | case3 y rest ih => simp only [mergeRow, if_pos rfl]; simp; omega
  | case4 x y rest h ih => simp only [mergeRow, if_neg h]; simp at ih ⊢; omega

theorem mergeRow_ne_zero (l : List ℕ) (h : ∀ x ∈ l, x ≠ 0) :
    ∀ z ∈ mergeRow l, z ≠ 0 := by
  intro z hz
  rcases mergeRow_mem l z hz with h1 | ⟨x, hx, rfl⟩
  · exact h z h1
  · exact Nat.mul_ne_zero (h x hx) (by decide)

/-- A merge pass over a row with no adjacent equal pair changes nothing. -/
theorem mergeRow_eq_self : ∀ (l : List ℕ),
    (∀ p ∈ adjPairs l, p.1 ≠ p.2) → mergeRow l = l := by
  intro l
  induction l using mergeRow.induct with
  | case1 => intro _; rfl
  | case2 x => intro _; rfl
  | case3 y rest ih =>
    intro h
    exact absurd rfl (h (y, y) (by simp [adjPairs]))
  | case4 x y rest h ih =>
    intro hl
    simp only [mergeRow, if_neg h]
    rw [ih (fun p hp => hl p (by simp [adjPairs, hp]))]

theorem adjPairs_mem_append : ∀ (m t : List ℕ), ∀ p ∈ adjPairs m, p ∈ adjPairs (m ++ t) := by
  intro m
  induction m with
  | nil => intro t p hp; simp [adjPairs] at hp
  | cons x m ih =>
    intro t p hp
    cases m with
    | nil => simp [adjPairs] at hp
    | cons y m' =>
      rcases List.mem_cons.mp hp with rfl | hp'
      · simp [adjPairs]
      · simp only [List.cons_append, adjPairs, List.mem_cons]
        exact Or.inr (ih t p hp')

theorem adjPairs_mem_left : ∀ (m : List ℕ), ∀ p ∈ adjPairs m, p.1 ∈ m ∧ p.2 ∈ m := by
  intro m
  induction m with
  | nil => intro p hp; simp [adjPairs] at hp
  | cons x m ih =>
    intro p hp
    cases m with
    | nil => simp [adjPairs] at hp
    | cons y m' =>
      rcases List.mem_cons.mp hp with rfl | hp'
      · simp
      · have := ih p hp'
        exact ⟨by simp [this.1], by simp [this.2]⟩

theorem filter_replicate_zero (k : ℕ) :
    (List.replicate k 0).filter (fun x : ℕ => x ≠ 0) = [] := by
  induction k with
  | zero => rfl
  | succ n ih => simp [List.replicate_succ, ih]

/-- The zero filter of a slide's output recovers exactly the merged row. -/
theorem filter_slideRow (r : List ℕ) :
    (slideRow r).filter (fun x => x ≠ 0) = mergeRow (r.filter (fun x => x ≠ 0)) := by
  have hz : ∀ z ∈ mergeRow (r.filter (fun x => x ≠ 0)), z ≠ 0 :=
    mergeRow_ne_zero _ (by intro x hx; simpa using (List.mem_filter.mp hx).2)
  simp only [slideRow, List.filter_append, filter_replicate_zero, List.append_nil]
  exact List.filter_eq_self.mpr (fun a ha => by simpa using hz a ha)

/-- C1 (amended), row form: when a slid row has no adjacent equal nonzero
cells, sliding it again changes nothing. -/
theorem slideRow_idem (r : List ℕ) (h : AdjOK (slideRow r)) :
    slideRow (slideRow r) = slideRow r := by
  have hz : ∀ z ∈ mergeRow (r.filter (fun x => x ≠ 0)), z ≠ 0 :=
    mergeRow_ne_zero _ (by intro x hx; simpa using (List.mem_filter.mp hx).2)
  have hne : ∀ p ∈ adjPairs (mergeRow (r.filter (fun x => x ≠ 0))), p.1 ≠ p.2 := by
    intro p hp
    have hmem := adjPairs_mem_left _ p hp
    have hp' : p ∈ adjPairs (slideRow r) := by
      have := adjPairs_mem_append (mergeRow (r.filter (fun x => x ≠ 0)))
        (List.replicate (4 - (mergeRow (r.filter (fun x => x ≠ 0))).length) 0) p hp
      simpa [slideRow] using this
    exact h p hp' (hz _ hmem.1) (hz _ hmem.2)
  conv_lhs => rw [slideRow]
  rw [filter_slideRow, mergeRow_eq_self _ hne]
  rfl

theorem slideRow_length (r : List ℕ) (h : r.length ≤ 4) :
    (slideRow r).length = 4 := by
  have h1 : (mergeRow (r.filter (fun x => x ≠ 0))).length ≤ 4 :=
    le_trans (mergeRow_length_le _) (le_trans (List.length_filter_le _ _) h)
  simp only [slideRow, List.length_append, List.length_replicate]
  omega

theorem getD_list4 : ∀ (l : List ℕ), l.length = 4 →
    [l.getD 0 0, l.getD 1 0, l.getD 2 0, l.getD 3 0] = l
  | [], h => by simp at h
  | [_], h => by simp at h
  | [_, _], h => by simp at h
  | [_, _, _], h => by simp at h
  | [_, _, _, _], _ => rfl
  | _ :: _ :: _ :: _ :: _ :: _, h => by simp at h

theorem rowList_move_left (b : Board) (i : Fin 4) :
    rowList (move_left b) i = slideRow (rowList b i) := by
  have h4 : (slideRow (rowList b i)).length = 4 :=
    slideRow_length _ (by simp [rowList])
  simpa [rowList, move_left] using getD_list4 _ h4

/-- C1 (amended): sliding left a second time changes nothing provided the
first slide's output contains no row with two adjacent equal nonzero cells
(the configuration a second pass would merge again). -/
theorem move_left_idempotent_on_merge_free (b : Board)
    (h : ∀ i, AdjOK (rowList (move_left b) i)) :
    move_left (move_left b) = move_left b := by
  funext i j
  have hr := rowList_move_left b i
  have hAdj : AdjOK (slideRow (rowList b i)) := hr ▸ h i
  show (slideRow (rowList (move_left b) i)).getD j.val 0 = _
  rw [hr, slideRow_idem _ hAdj]
  rfl

/-- C1 (amended, witness): on the single-tile corner board the slid board is
merge-free and a second slide is the identity. -/
theorem move_left_idempotent_witness :
    (∀ i, AdjOK (rowList (move_left cornerBoard) i)) ∧
    move_left (move_left cornerBoard) = move_left cornerBoard :=
  ⟨by decide, move_left_idempotent_on_merge_free cornerBoard (by decide)⟩

/-! ### Well-formedness preservation -/

theorem CellOK_double {n : ℕ} (h : CellOK n) : CellOK (n * 2) := by
  rcases h with rfl | ⟨k, rfl⟩
  · exact Or.inl rfl
  · exact Or.inr ⟨k + 1, by ring⟩

theorem slideRow_cellOK (r : List ℕ) (h : ∀ x ∈ r, CellOK x) :
    ∀ z ∈ slideRow r, CellOK z := by
  intro z hz
  simp only [slideRow] at hz
  rcases List.mem_append.mp hz with hm | hrep
  · rcases mergeRow_mem _ z hm with h1 | ⟨x, hx, rfl⟩
    · exact h z (List.mem_filter.mp h1).1
    · exact CellOK_double (h x (List.mem_filter.mp hx).1)
  · rw [List.eq_of_mem_replicate hrep]
    exact Or.inl rfl

theorem getD_mem_or_eq (l : List ℕ) (i d : ℕ) : l.getD i d ∈ l ∨ l.getD i d = d := by
  by_cases h : i < l.length
  · left; rw [List.getD_eq_getElem _ _ h]; exact List.getElem_mem _
  · right; exact List.getD_eq_default _ _ (le_of_not_lt h)

theorem WF_move_left {b : Board} (h : WF b) : WF (move_left b) := by
  intro i j
  show CellOK ((slideRow (rowList b i)).getD j.val 0)
  rcases getD_mem_or_eq (slideRow (rowList b i)) j.val 0 with hm | he
  · refine slideRow_cellOK _ ?_ _ hm
    intro x hx
    rcases (by simpa [rowList] using hx :
      x = b i 0 ∨ x = b i 1 ∨ x = b i 2 ∨ x = b i 3) with rfl | rfl | rfl | rfl <;>
      exact h i _
  · rw [he]; exact Or.inl rfl

theorem WF_rot90 {b : Board} (h : WF b) : WF (rot90 b) := fun _ _ => h _ _

theorem WF_rot270 {b : Board} (h : WF b) : WF (rot270 b) := fun _ _ => h _ _

theorem WF_fliplr {b : Board} (h : WF b) : WF (fliplr b) := fun _ _ => h _ _

theorem WF_move_board {b : Board} (h : WF b) (direction : String) :
    WF (move_board b direction) := by
  unfold move_board
  split_ifs
  · exact WF_rot270 (WF_move_left (WF_rot90 h))
  · exact WF_rot90 (WF_move_left (WF_rot270 h))
  · exact WF_move_left h
  · exact WF_fliplr (WF_move_left (WF_fliplr h))
  · exact h

theorem WF_setCell {b : Board} (h : WF b) (r c : Fin 4) (v : ℕ)
    (hv : v = 2 ∨ v = 4) : WF (setCell b r c v) := by
  intro i j
  unfold setCell
  split_ifs with hij
  · rcases hv with rfl | rfl
    · exact Or.inr ⟨0, rfl⟩
    · exact Or.inr ⟨1, rfl⟩
  · exact h i j

/-- C9: every core operation — the move simulation in any direction (the four
canonical tokens and also the unchanged-board fallback) and the 2/4 tile
spawns the chance node writes — maps a well-formed board to a well-formed
board: 4×4 (carried by the `Board` type), every cell 0 or a power of two ≥ 2. -/
theorem core_ops_preserve_wellformed (b : Board) (h : WF b) :
    (∀ direction, WF (move_board b direction)) ∧
    (∀ (r c : Fin 4) (v : ℕ), v = 2 ∨ v = 4 → WF (setCell b r c v)) :=
  ⟨fun d => WF_move_board h d, fun r c v hv => WF_setCell h r c v hv⟩

/-- C9 (witness): instantiated on the single-tile corner board. -/
theorem core_ops_preserve_wellformed_witness :
    WF cornerBoard ∧
    ((∀ direction, WF (move_board cornerBoard direction)) ∧
     (∀ (r c : Fin 4) (v : ℕ), v = 2 ∨ v = 4 → WF (setCell cornerBoard r c v))) :=
  ⟨by decide, core_ops_preserve_wellformed cornerBoard (by decide)⟩

/-- C1 (counterexample): the slide-left primitive is not idempotent.  On the
board whose top row is `[2, 2, 2, 2]` the first slide gives `[4, 4, 0, 0]`
and the second merges again to `[8, 0, 0, 0]`, so
`move_left (move_left b) ≠ move_left b`. -/
theorem move_left_not_idempotent :
    move_left (move_left quadBoard) ≠ move_left quadBoard := by
  decide

/-- C2 (counterexample): an unknown direction token is not rejected with an
error; `move_board` returns the board unchanged and `simulate_after_move`
returns `None`, exactly as it does for the genuinely invalid move `"left"`
on this board — the unknown token is silently treated as a no-op move. -/
theorem unknown_direction_not_rejected :
    move_board cornerBoard "diagonal" = cornerBoard ∧
    simulate_after_move cornerBoard "diagonal" = none ∧
    simulate_after_move cornerBoard "left" = none := by
  refine ⟨by decide, by decide, by decide⟩

/-- C2 (amended): for every board and every direction token outside the four
canonical names, `move_board` returns the board unchanged and
`simulate_after_move` classifies the token as an invalid move (`None`); no
invalid-argument error exists on this path. -/
theorem unknown_direction_silent_noop (b : Board) (direction : String)
    (h : direction ∉ moveOrder) :
    move_board b direction = b ∧ simulate_after_move b direction = none := by
  simp only [moveOrder, List.mem_cons, List.not_mem_nil, or_false] at h
  push_neg at h
  obtain ⟨h1, h2, h3, h4⟩ := h
  have hmb : move_board b direction = b := by
    simp [move_board, h1, h2, h3, h4]
  refine ⟨hmb, ?_⟩
  simp only [simulate_after_move, hmb]
  simp

/-- C2 (amended, witness): the token `"diag"` on the zero board. -/
theorem unknown_direction_silent_noop_witness :
    "diag" ∉ moveOrder ∧
    (move_board zeroBoard "diag" = zeroBoard ∧
      simulate_after_move zeroBoard "diag" = none) :=
  ⟨by decide, unknown_direction_silent_noop zeroBoard "diag" (by decide)⟩

/-- C3 (counterexample): a malformed board (the non-power-of-two value 3) is
not rejected by any input validation: simulation merges the two 3s into a 6,
and the advisor runs its search and returns a recommendation on it. -/
theorem malformed_board_processed :
    move_board badBoard "left" =
      mkBoard [[6, 0, 0, 0], [0, 0, 0, 0], [0, 0, 0, 0], [0, 0, 0, 0]] ∧
    (get_move_with_explanation badBoard 1).1 ≠ none := by
  refine ⟨by decide, by decide⟩

/-- C3 (amended): the core performs no input validation and never repairs
input; arbitrary cell values — powers of two or not — are processed by the
same sliding rules, any two equal leading values `x` merging to `x * 2`. -/
theorem malformed_values_processed (x : ℕ) (h : x ≠ 0) :
    slideRow [x, x, 0, 0] = [x * 2, 0, 0, 0] := by
  simp [slideRow, mergeRow, h]

/-- C3 (amended, witness): at the non-power-of-two value 3 the slide produces
6. -/
theorem malformed_values_processed_witness :
    (3 : ℕ) ≠ 0 ∧ slideRow [3, 3, 0, 0] = [6, 0, 0, 0] :=
  ⟨by decide, malformed_values_processed 3 (by decide)⟩

/-- C4 (code bug): on a terminal board the advisor correctly reports no valid
moves, but the coach block of `ai_suggest` then evaluates
`best_move.upper()` with `best_move = None` — an uncaught `AttributeError`
(modelled as `none`) instead of one of the two fixed-template messages. -/
theorem coach_faults_on_terminal_board :
    get_move_with_explanation terminalBoard 2 =
      (none, [], "No valid moves available.") ∧
    ai_suggest terminalBoard 2 (some "up") = none := by
  refine ⟨by decide, by decide⟩

/-- C5: at depth 0 the search returns exactly the heuristic value of the
board, for every board and either turn flag. -/
theorem expectimax_depth_zero (b : Board) (t : Bool) :
    expectimax b 0 t = evaluate_board b :=
  rfl

/-- C7: sliding the row `[2, 2, 4, 0]` left yields `[4, 4, 0, 0]` in the
source's `move_left`, and the spec's scored slide yields the same row with
gained score 4 and the merge target at column 0. -/
theorem slide_row_2240 :
    slideRow [2, 2, 4, 0] = [4, 4, 0, 0] ∧
    slideRowScored [2, 2, 4, 0] = ([4, 4, 0, 0], 4, [0]) := by
  refine ⟨by decide, by decide⟩

/-! ### Tie-breaking of the advisor's maximum -/

theorem pick_fst_le (a q : String × ℚ) : a.2 ≤ (pick a q).2 := by
  unfold pick
  split_ifs with h
  · exact le_of_lt h
  · exact le_refl _

theorem pick_snd_le (a q : String × ℚ) : q.2 ≤ (pick a q).2 := by
  unfold pick
  split_ifs with h
  · exact le_refl _
  · exact le_of_not_lt h

theorem foldl_pick_ge : ∀ (l : List (String × ℚ)) (a : String × ℚ),
    a.2 ≤ (l.foldl pick a).2 := by
  intro l
  induction l with
  | nil => intro a; exact le_refl _
  | cons q t ih => intro a; exact le_trans (pick_fst_le a q) (ih (pick a q))

/-- The fold of Python's `max` dominates every element it saw. -/
theorem foldl_pick_max : ∀ (l : List (String × ℚ)) (a p : String × ℚ),
    p ∈ a :: l → p.2 ≤ (l.foldl pick a).2 := by
  intro l
  induction l with
  | nil =>
    intro a p hp
    rw [List.mem_singleton.mp hp]
    exact le_refl _
  | cons q t ih =>
    intro a p hp
    rcases List.mem_cons.mp hp with rfl | hp'
    · exact le_trans (pick_fst_le p q) (foldl_pick_ge t (pick p q))
    · rcases List.mem_cons.mp hp' with rfl | hp''
      · exact le_trans (pick_snd_le a p) (foldl_pick_ge t (pick a p))
      · exact ih (pick a q) p (List.mem_cons_of_mem _ hp'')

/-- The fold of Python's `max` returns the *first* maximal element: the list
splits around the returned element and everything before it scores strictly
less. -/
theorem foldl_pick_first : ∀ (l : List (String × ℚ)) (a : String × ℚ),
    ∃ pre post, a :: l = pre ++ (l.foldl pick a) :: post ∧
      ∀ p ∈ pre, p.2 < (l.foldl pick a).2 := by
  intro l
  induction l with
  | nil => intro a; exact ⟨[], [], rfl, by simp⟩
  | cons q t ih =>
    intro a
    rw [List.foldl_cons]
    by_cases h : q.2 > a.2
    · have hp : pick a q = q := by unfold pick; rw [if_pos h]
      obtain ⟨pre', post', hdec, hpre⟩ := ih q
      rw [hp]
      refine ⟨a :: pre', post', ?_, ?_⟩
      · simp only [List.cons_append]
        rw [hdec]
      · intro p hpmem
        rcases List.mem_cons.mp hpmem with rfl | hmem
        · exact lt_of_lt_of_le h (foldl_pick_ge t q)
        · exact hpre p hmem
    · have hp : pick a q = a := by unfold pick; rw [if_neg h]
      obtain ⟨pre', post', hdec, hpre⟩ := ih a
      rw [hp]
      cases pre' with
      | nil =>
        have ha : a = t.foldl pick a := (List.cons.injEq _ _ _ _).mp hdec |>.1
        refine ⟨[], q :: t, ?_, by simp⟩
        rw [← ha]
        rfl
      | cons a0 pre'' =>
        have h0 := (List.cons.injEq _ _ _ _).mp (by simpa using hdec)
        obtain ⟨rfl, ht⟩ := h0
        have haf : a.2 < (t.foldl pick a).2 := hpre a (List.mem_cons_self _ _)
        refine ⟨a :: q :: pre'', post', ?_, ?_⟩
        · simp only [List.cons_append]
          rw [← ht]
        · intro p hpmem
          rcases List.mem_cons.mp hpmem with rfl | hmem
          · exact haf
          · rcases List.mem_cons.mp hmem with rfl | hmem'
            · exact lt_of_le_of_lt (le_of_not_lt h) haf
            · exact hpre p (List.mem_cons_of_mem _ hmem')

/-- The keys of an association list built by a `filterMap` that tags each
element with its source form a sublist of the source list. -/
theorem map_fst_filterMap_sublist {β : Type} (L : List String)
    (F : String → Option (String × β)) (hF : ∀ mv p, F mv = some p → p.1 = mv) :
    ((L.filterMap F).map Prod.fst).Sublist L := by
  induction L with
  | nil => simp
  | cons a L ih =>
    cases hFa : F a with
    | none =>
      rw [List.filterMap_cons_none hFa]
      exact ih.cons a
    | some p =>
      rw [List.filterMap_cons_some hFa]
      rw [List.map_cons, hF a p hFa]
      exact ih.cons₂ a

/-- C6: when two or more valid directions obtain exactly the tied maximal
expected score `s`, the advisor selects the direction earliest in the fixed
enumeration order: the per-direction score list is enumerated in the order
up, down, left, right (a sublist of it, left conjunct), and the selected
direction is the first entry of that list attaining `s` — every entry before
it scores strictly less. -/
theorem advisor_tie_break (b : Board) (depth : ℕ) (d1 d2 : String) (s : ℚ)
    (h1 : (d1, s) ∈ move_scores b depth) (_h2 : (d2, s) ∈ move_scores b depth)
    (_hne : d1 ≠ d2) (hmax : ∀ p ∈ move_scores b depth, p.2 ≤ s) :
    ((move_scores b depth).map Prod.fst).Sublist moveOrder ∧
    ∃ d pre post,
      (get_move_with_explanation b depth).1 = some d ∧
      move_scores b depth = pre ++ (d, s) :: post ∧
      ∀ p ∈ pre, p.2 < s := by
  constructor
  · apply map_fst_filterMap_sublist
    intro mv p hp
    cases hs : simulate_after_move b mv with
    | none => rw [hs] at hp; simp at hp
    | some nb =>
      rw [hs] at hp
      simp only [Option.map_some'] at hp
      rw [← Option.some.inj hp]
  · cases hsc : move_scores b depth with
    | nil => rw [hsc] at h1; simp at h1
    | cons p0 rest =>
      obtain ⟨pre, post, hdec, hpre⟩ := foldl_pick_first rest p0
      have hrmem : rest.foldl pick p0 ∈ move_scores b depth := by
        rw [hsc, hdec]
        exact List.mem_append_right _ (List.mem_cons_self _ _)
      have hrs : (rest.foldl pick p0).2 = s := by
        refine le_antisymm (hmax _ hrmem) ?_
        exact foldl_pick_max rest p0 (d1, s) (by rw [← hsc]; exact h1)
      have hbest : bestOf (move_scores b depth) = some (rest.foldl pick p0) := by
        rw [hsc]; rfl
      have hget : (get_move_with_explanation b depth).1 =
          some (rest.foldl pick p0).1 := by
        simp only [get_move_with_explanation, hbest]
      refine ⟨(rest.foldl pick p0).1, pre, post, hget, ?_, ?_⟩
      · rw [← hrs]
        simpa using hdec
      · intro p hp
        rw [← hrs]
        exact hpre p hp

/-- C6 (witness): on the single-tile corner board at depth 1 the two valid
directions down and right tie exactly at 3119/50, and the advisor selects
down, the earlier one. -/
theorem advisor_tie_break_witness :
    (("down", (3119 : ℚ)/50) ∈ move_scores cornerBoard 1) ∧
    (("right", (3119 : ℚ)/50) ∈ move_scores cornerBoard 1) ∧
    (((move_scores cornerBoard 1).map Prod.fst).Sublist moveOrder ∧
      ∃ d pre post,
        (get_move_with_explanation cornerBoard 1).1 = some d ∧
        move_scores cornerBoard 1 = pre ++ (d, (3119 : ℚ)/50) :: post ∧
        ∀ p ∈ pre, p.2 < (3119 : ℚ)/50) :=
  ⟨by decide, by decide,
    advisor_tie_break cornerBoard 1 "down" "right" ((3119 : ℚ)/50)
      (by decide) (by decide) (by decide) (by decide)⟩

/-- C8 (code bug): the terminal guard of `expectimax` is the equality
`depth == 0`, so with empty cells on the board a call at depth −1 takes the
recursive branch — it does not return within one nested call (fuel 1, left
conjunct), while a depth-0 call is terminal and returns the heuristic value
immediately (right conjunct). -/
theorem expectimax_negative_depth_recurses :
    expectimaxF 1 cornerBoard (-1) true = none ∧
    expectimaxF 1 cornerBoard 0 true = some (evaluate_board cornerBoard) := by
  refine ⟨by decide, by decide⟩

/-! ### Frame property of the heap-instrumented functions -/

theorem prefix_alloc (h : Heap) (b : Board) : h <+: (alloc h b).1 :=
  ⟨[b], rfl⟩

theorem prefix_writeCell {h l : Heap} (hp : h <+: l) (r : ℕ)
    (hr : h.length ≤ r) (i j : Fin 4) (v : ℕ) : h <+: writeCell l r i j v := by
  obtain ⟨t, rfl⟩ := hp
  unfold writeCell
  rw [List.set_append_right _ _ hr]
  exact ⟨_, rfl⟩

theorem prefix_getRef {h l : Heap} (hp : h <+: l) {i : ℕ} (hi : i < h.length) :
    getRef l i = getRef h i := by
  obtain ⟨t, rfl⟩ := hp
  simp only [getRef, List.getD_eq_getElem?_getD, List.getElem?_append_left hi]

theorem foldl_prefix {α β : Type} (step : Heap × α → β → Heap × α)
    (hstep : ∀ st x, st.1 <+: (step st x).1) :
    ∀ (l : List β) (st : Heap × α), st.1 <+: (l.foldl step st).1 := by
  intro l
  induction l with
  | nil => intro st; exact List.prefix_refl _
  | cons x t ih => intro st; exact (hstep st x).trans (ih (step st x))

theorem prefix_simulate_after_moveH (h : Heap) (r : ℕ) (direction : String) :
    h <+: (simulate_after_moveH h r direction).1 := by
  simp only [simulate_after_moveH, alloc]
  split <;>
    (rw [List.append_assoc, List.append_assoc]; exact List.prefix_append _ _)

theorem prefix_expectimaxH : ∀ (depth : ℕ) (h : Heap) (r : ℕ) (p : Bool),
    h <+: (expectimaxH h r depth p).1 := by
  intro depth
  induction depth with
  | zero => intro h r p; exact List.prefix_refl _
  | succ d ih =>
    intro h r p
    show h <+: (expectimaxH h r (d + 1) p).1
    simp only [expectimaxH]
    split_ifs
    · exact List.prefix_refl _
    · refine foldl_prefix _ ?_ moveOrder (h, none)
      intro st mv
      cases hsm : (simulate_after_moveH st.1 r mv).2 with
      | none =>
        simp only [hsm]
        exact prefix_simulate_after_moveH st.1 r mv
      | some ra =>
        simp only [hsm]
        exact (prefix_simulate_after_moveH st.1 r mv).trans (ih _ _ _)
    · refine foldl_prefix _ ?_ _ (h, 0)
      intro st rc
      have p1 : st.1 <+:
          writeCell (alloc st.1 (getRef st.1 r)).1 (alloc st.1 (getRef st.1 r)).2
            rc.1 rc.2 2 :=
        prefix_writeCell (prefix_alloc _ _) _ (le_refl _) _ _ _
      have p2 : st.1 <+:
          (expectimaxH
            (writeCell (alloc st.1 (getRef st.1 r)).1 (alloc st.1 (getRef st.1 r)).2
              rc.1 rc.2 2)
            (alloc st.1 (getRef st.1 r)).2 d true).1 :=
        p1.trans (ih _ _ _)
      set e2 := expectimaxH
        (writeCell (alloc st.1 (getRef st.1 r)).1 (alloc st.1 (getRef st.1 r)).2
          rc.1 rc.2 2)
        (alloc st.1 (getRef st.1 r)).2 d true with he2
      have p3 : e2.1 <+:
          writeCell (alloc e2.1 (getRef e2.1 r)).1 (alloc e2.1 (getRef e2.1 r)).2
            rc.1 rc.2 4 :=
        prefix_writeCell (prefix_alloc _ _) _ (le_refl _) _ _ _
      exact (p2.trans (p3.trans (ih _ _ _)))

theorem prefix_get_moveH (h : Heap) (r : ℕ) (depth : ℕ) :
    h <+: (get_move_with_explanationH h r depth).1 := by
  simp only [get_move_with_explanationH]
  have hfold : h <+:
      (moveOrder.foldl
        (fun (st : Heap × List (String × ℚ)) mv =>
          let sm := simulate_after_moveH st.1 r mv
          match sm.2 with
          | none => (sm.1, st.2)
          | some ra =>
            let ev := expectimaxH sm.1 ra (depth - 1) false
            (ev.1, st.2 ++ [(mv, ev.2)]))
        (h, [])).1 := by
    refine foldl_prefix _ ?_ moveOrder (h, [])
    intro st mv
    cases hsm : (simulate_after_moveH st.1 r mv).2 with
    | none =>
      simp only [hsm]
      exact prefix_simulate_after_moveH st.1 r mv
    | some ra =>
      simp only [hsm]
      exact (prefix_simulate_after_moveH st.1 r mv).trans
        (prefix_expectimaxH _ _ _ _)
  cases hb : bestOf (moveOrder.foldl
      (fun (st : Heap × List (String × ℚ)) mv =>
        let sm := simulate_after_moveH st.1 r mv
        match sm.2 with
        | none => (sm.1, st.2)
        | some ra =>
          let ev := expectimaxH sm.1 ra (depth - 1) false
          (ev.1, st.2 ++ [(mv, ev.2)]))
      (h, [])).2 with
  | none => simpa [hb] using hfold
  | some bp => simpa [hb] using hfold

/-- C10: with the numpy arrays in an explicit heap, `simulate_after_move`,
`expectimax` and the advisor loop only ever extend the heap (`<+:` is the
prefix order on allocation lists) — the chance node's write lands in the
copy it just allocated — so every array the caller already held, in
particular the input board, still reads exactly the same afterwards. -/
theorem no_caller_visible_mutation (h : Heap) (r : ℕ) (direction : String)
    (depth : ℕ) (p : Bool) :
    (h <+: (simulate_after_moveH h r direction).1 ∧
     h <+: (expectimaxH h r depth p).1 ∧
     h <+: (get_move_with_explanationH h r depth).1) ∧
    (∀ i, i < h.length →
      getRef (simulate_after_moveH h r direction).1 i = getRef h i ∧
      getRef (expectimaxH h r depth p).1 i = getRef h i ∧
      getRef (get_move_with_explanationH h r depth).1 i = getRef h i) := by
  refine ⟨⟨prefix_simulate_after_moveH h r direction,
    prefix_expectimaxH depth h r p, prefix_get_moveH h r depth⟩, ?_⟩
  intro i hi
  exact ⟨prefix_getRef (prefix_simulate_after_moveH h r direction) hi,
    prefix_getRef (prefix_expectimaxH depth h r p) hi,
    prefix_getRef (prefix_get_moveH h r depth) hi⟩

/-- C10 (witness): a one-array heap holding the corner board, searched at
depth 1: the caller's array reads unchanged. -/
theorem no_caller_visible_mutation_witness :
    (0 : ℕ) < ([cornerBoard] : Heap).length ∧
    getRef (expectimaxH [cornerBoard] 0 1 true).1 0 = getRef [cornerBoard] 0 :=
  ⟨by decide,
    ((no_caller_visible_mutation [cornerBoard] 0 "down" 1 true).2 0
      (by decide)).2.1⟩

end App2048
